import Mathlib

set_option maxHeartbeats 1000000

/-! # Verification of the trace analyzer

A shallow embedding of the trace-analysis pipeline in `analyze_trace.py`:
the loader (lines 10-14), the interval resolver (lines 24-46), the summary
totals (lines 49-51), the per-tool aggregation (lines 71-77) and the three
insight rules (lines 88-105).  Python floats are modelled as rationals,
absent / `None` fields as `Option`, and the runtime exceptions the script
can raise (`ZeroDivisionError`, `json.JSONDecodeError`) as an explicit
error type.  The report-formatting calls of the script are the out-of-scope
rendering boundary; the values they would print are the fields of
`Summary` below. -/

/-- One decoded trace record, with exactly the fields the analyzer reads.
`event`, `turn` and `elapsed_s` are read unconditionally (`event['...']`);
`duration_s` is read with `event.get`, and `prompt_len` / `tool` live in
the `data` sub-object and are read with `.get` and a default. -/
structure Event where
  event : String
  turn : Int
  elapsed_s : ℚ
  duration_s : Option ℚ
  prompt_len : Option Int
  tool : Option String
deriving DecidableEq

/-- The runtime failures of the analyzer that the embedding models. -/
inductive PyError where
  | zeroDivisionError
  | decodeError
deriving DecidableEq

/-- Entry appended to `api_calls` (lines 35-39). -/
structure ApiCall where
  turn : Int
  time : ℚ
  prompt_len : Int
deriving DecidableEq

/-- Entry appended to `tool_executions` (lines 42-46). -/
structure ToolExec where
  turn : Int
  tool : String
  time : ℚ
deriving DecidableEq

/-- Line 29: the event kinds that bound a pending completion call. -/
def isBounding (e : Event) : Bool :=
  e.event == "tool_call" || e.event == "completion_response_finish" || e.event == "error"

/-- Lines 28-31: the first bounding event in the rest of the stream
(the inner `for j in range(i + 1, len(events))` scan). -/
def nextBound (l : List Event) : Option Event :=
  l.find? isBounding

/-- Lines 35-39: the record appended for a completion call `e` whose
bounding event is `b`. -/
def mkCall (e b : Event) : ApiCall :=
  ⟨e.turn, b.elapsed_s - e.elapsed_s, e.prompt_len.getD 0⟩

/-- Lines 24-39: the `api_calls` list.  The guard `if next_event_time:`
is Python truthiness on a float-or-`None`, so a bounding event whose
`elapsed_s` equals `0` is treated exactly like no bounding event. -/
def apiCalls : List Event → List ApiCall
  | [] => []
  | e :: rest =>
    if e.event = "completion_call" then
      match nextBound rest with
      | some b => if b.elapsed_s = 0 then apiCalls rest else mkCall e b :: apiCalls rest
      | none => apiCalls rest
    else apiCalls rest

/-- Lines 41-46: the `tool_executions` list.  The guard
`event.get('duration_s')` is Python truthiness, so both an absent and a
zero `duration_s` skip the record.  (In the source both lists are built
by the branches of one loop; the branches are disjoint and each list
depends only on its own branch, so they are embedded as two passes.) -/
def toolExecs : List Event → List ToolExec
  | [] => []
  | e :: rest =>
    if e.event = "tool_result" then
      match e.duration_s with
      | some d => if d = 0 then toolExecs rest else ⟨e.turn, e.tool.getD "unknown", d⟩ :: toolExecs rest
      | none => toolExecs rest
    else toolExecs rest

/-- Per-event form of the `tool_result` branch, used to state what the
loop emits for a single event. -/
def toolExecOf (e : Event) : Option ToolExec :=
  if e.event = "tool_result" then
    match e.duration_s with
    | some d => if d = 0 then none else some ⟨e.turn, e.tool.getD "unknown", d⟩
    | none => none
  else none

/-- Line 49: `events[-1]['elapsed_s'] if events else 0`. -/
def totalTime (es : List Event) : ℚ :=
  match es.getLast? with
  | some e => e.elapsed_s
  | none => 0

/-- Line 50: `sum(call['time'] for call in api_calls)`. -/
def totalApiTime (es : List Event) : ℚ :=
  ((apiCalls es).map ApiCall.time).sum

/-- Line 51: `sum(tool['time'] for tool in tool_executions)`. -/
def totalToolTime (es : List Event) : ℚ :=
  ((toolExecs es).map ToolExec.time).sum

/-- Lines 74-77: one update of the `tool_stats` dict (name, count, total
time); Python dicts keep insertion order, modelled by an association
list. -/
def addStat (s : List (String × Nat × ℚ)) (name : String) (t : ℚ) : List (String × Nat × ℚ) :=
  match s with
  | [] => [(name, 1, t)]
  | (n, c, tt) :: rest =>
    if n = name then (n, c + 1, tt + t) :: rest else (n, c, tt) :: addStat rest name t

/-- Lines 71-77: the `tool_stats` aggregation over `tool_executions`. -/
def toolStats (es : List Event) : List (String × Nat × ℚ) :=
  (toolExecs es).foldl (fun s t => addStat s t.tool t.time) []

/-- Sum of the `total_time` components of a stats list. -/
def sumStats (s : List (String × Nat × ℚ)) : ℚ :=
  (s.map (fun x => x.2.2)).sum

/-- Line 101: the slow-tool filter `t['time'] > 0.1`. -/
def slowOf (ts : List ToolExec) : List ToolExec :=
  ts.filter (fun t => (1 : ℚ) / 10 < t.time)

/-- Stable insertion step for sorting by `time` descending: a new element
goes in front of the first element whose key it is `≥`, i.e. before
equal keys already present. -/
def insertDesc (x : ToolExec) : List ToolExec → List ToolExec
  | [] => [x]
  | y :: ys => if y.time ≤ x.time then x :: y :: ys else y :: insertDesc x ys

/-- Stable sort by `time` descending; with `foldr`, earlier elements are
inserted later and land in front of their equals, which is exactly the
stability of `sorted(..., reverse=True)` in line 104. -/
def sortDesc (l : List ToolExec) : List ToolExec :=
  l.foldr insertDesc []

/-- Line 104: `sorted(slow_tools, key=..., reverse=True)[:3]`. -/
def slowSupport (ts : List ToolExec) : List ToolExec :=
  (sortDesc (slowOf ts)).take 3

/-- A diagnostic finding, carrying the data the script would print. -/
inductive Insight where
  | apiDominance (q : ℚ)
  | turnVolume (n : Nat)
  | slowTools (support : List ToolExec)
deriving DecidableEq

/-- Lines 88-93: the API-dominance rule.  When the comparison fires the
message computes `total_api_time/total_tool_time`, which raises
`ZeroDivisionError` when `total_tool_time` is `0`. -/
def rule1 (api tool : ℚ) : Except PyError (Option Insight) :=
  if tool * 5 < api then
    if tool = 0 then .error .zeroDivisionError else .ok (some (.apiDominance (api / tool)))
  else .ok none

/-- Lines 96-98: the turn-volume rule `len(api_calls) > 10`. -/
def rule2 (apiCount : Nat) : Option Insight :=
  if 10 < apiCount then some (.turnVolume apiCount) else none

/-- Lines 101-105: the slow-tool rule (`if slow_tools:` is list
truthiness, i.e. non-emptiness). -/
def rule3 (ts : List ToolExec) : Option Insight :=
  if slowOf ts = [] then none else some (.slowTools (slowSupport ts))

/-- The analysis result: the values the script computes and hands to its
printing statements (§4.5 of the spec). -/
structure Summary where
  total_time_s : ℚ
  total_api_time_s : ℚ
  total_tool_time_s : ℚ
  overhead_s : ℚ
  api_calls : List ApiCall
  tool_stats : List (String × Nat × ℚ)
  insights : List Insight
deriving DecidableEq

/-- Lines 20-105 without the report formatting: resolver, totals,
aggregation, insight rules, in source order.  The only arithmetic fault
the core can raise is the division of rule 1. -/
def analyze (es : List Event) : Except PyError Summary :=
  match rule1 (totalApiTime es) (totalToolTime es) with
  | .error err => .error err
  | .ok i1 =>
    .ok ⟨totalTime es, totalApiTime es, totalToolTime es,
         totalTime es - totalApiTime es - totalToolTime es,
         apiCalls es, toolStats es,
         i1.toList ++ (rule2 (apiCalls es).length).toList ++ (rule3 (toolExecs es)).toList⟩

/-- One raw input line as the loader sees it: blank, syntactically
invalid JSON, or a decoded record. -/
inductive Line where
  | blank
  | invalid
  | record (e : Event)
deriving DecidableEq

/-- The record carried by a line, if any. -/
def lineRecord : Line → Option Event
  | Line.record e => some e
  | _ => none

/-- Lines 10-14: skip blank lines, decode the rest in order; a line that
fails to decode raises and aborts the whole run.  The loader never looks
at the `event` field. -/
def loadTrace : List Line → Except PyError (List Event)
  | [] => .ok []
  | Line.blank :: rest => loadTrace rest
  | Line.invalid :: _ => .error PyError.decodeError
  | Line.record e :: rest =>
    match loadTrace rest with
    | .ok es => .ok (e :: es)
    | .error err => .error err

/-- The whole run: load, then analyze. -/
def analyzeTrace (ls : List Line) : Except PyError Summary :=
  match loadTrace ls with
  | .ok es => analyze es
  | .error err => .error err

/-- Scan for the first bounding event, keeping the suffix that starts at
it: the position of a monotone pairing cursor. -/
def dropUntilBound : List Event → List Event
  | [] => []
  | e :: r => if isBounding e then e :: r else dropUntilBound r

/-- The pairing algorithm mandated by §4.2 of the spec: one forward
cursor shared by all completion calls, held as the unscanned suffix
`cur` of the stream.  At each completion call the scan starts at the
further along of `cur` and the position just after the call (the shorter
suffix), and the cursor is left standing on the bounding event found.
The span guard is the same as in `apiCalls`. -/
def cursorResolve : List Event → List Event → List ApiCall
  | [], _ => []
  | e :: rest, cur =>
    if e.event = "completion_call" then
      match dropUntilBound (if cur.length ≤ rest.length then cur else rest) with
      | b :: r =>
        (if b.elapsed_s = 0 then [] else [mkCall e b]) ++ cursorResolve rest (b :: r)
      | [] => cursorResolve rest cur
    else cursorResolve rest cur

/-- Linear-time pairing of the whole stream with the shared cursor. -/
def cursorApiCalls (es : List Event) : List ApiCall :=
  cursorResolve es es

/-- The state relation of the cursor pairing: the cursor suffix `cur` is
either not further along than the unprocessed remainder `rem`, or it
stands on a bounding event and no bounding event lies between the
remainder's start and the cursor. -/
def CursorInv (rem cur : List Event) : Prop :=
  rem.length ≤ cur.length ∨
    ∃ m b r, cur = b :: r ∧ rem = m ++ cur ∧ (∀ x ∈ m, isBounding x = false) ∧
      isBounding b = true

/-- A completion call at the session start: its `elapsed_s` is `0`. -/
def c1call : Event := ⟨"completion_call", 1, 0, none, none, none⟩

/-- A bounding event whose `elapsed_s` is still `0`. -/
def c1bound : Event := ⟨"tool_call", 1, 0, none, none, none⟩

/-- A well-formed trace with an api call and no tool time. -/
def c2trace : List Event :=
  [⟨"completion_call", 1, 1, none, none, none⟩,
   ⟨"completion_response_finish", 1, 3, none, none, none⟩]

/-- Another well-formed trace with positive api time and zero tool time. -/
def c3trace : List Event :=
  [⟨"completion_call", 1, 2, none, some 10, none⟩,
   ⟨"completion_response_finish", 1, 7, none, none, none⟩]

/-- A `tool_result` event whose `duration_s` is present and equal to `0`. -/
def c4zero : Event := ⟨"tool_result", 1, 1, some 0, none, some "grep"⟩

/-- A record whose `event` field holds an unrecognized value. -/
def c5odd : Event := ⟨"banana", 0, 1, none, none, none⟩

/-- A recognizable record used in the loader witness. -/
def c5evt : Event := ⟨"completion_call", 1, 0, none, none, none⟩

/-- A monotone two-event trace producing one span. -/
def c9trace : List Event :=
  [⟨"completion_call", 1, 1, none, none, none⟩, ⟨"tool_call", 1, 3, none, none, none⟩]

/-- First completion call of the shared-bound witness. -/
def c10e1 : Event := ⟨"completion_call", 1, 1, none, none, none⟩

/-- Second completion call of the shared-bound witness. -/
def c10e2 : Event := ⟨"completion_call", 2, 2, none, none, none⟩

/-- The single bounding event of the shared-bound witness. -/
def c10b : Event := ⟨"tool_call", 2, 5, none, none, none⟩

/-! ## Supporting lemmas -/

theorem isBounding_of_completion_call (e : Event) (h : e.event = "completion_call") :
    isBounding e = false := by
  simp [isBounding, h]

theorem loadTrace_blank_cons (rest : List Line) :
    loadTrace (Line.blank :: rest) = loadTrace rest := rfl

theorem apiCalls_cons_cc_some (e b : Event) (rest : List Event)
    (h : e.event = "completion_call") (hnb : nextBound rest = some b) :
    apiCalls (e :: rest)
      = if b.elapsed_s = 0 then apiCalls rest else mkCall e b :: apiCalls rest := by
  show (if e.event = "completion_call" then
      match nextBound rest with
      | some b => if b.elapsed_s = 0 then apiCalls rest else mkCall e b :: apiCalls rest
      | none => apiCalls rest
    else apiCalls rest) = _
  rw [if_pos h, hnb]

theorem apiCalls_cons_cc_none (e : Event) (rest : List Event)
    (h : e.event = "completion_call") (hnb : nextBound rest = none) :
    apiCalls (e :: rest) = apiCalls rest := by
  show (if e.event = "completion_call" then
      match nextBound rest with
      | some b => if b.elapsed_s = 0 then apiCalls rest else mkCall e b :: apiCalls rest
      | none => apiCalls rest
    else apiCalls rest) = _
  rw [if_pos h, hnb]

theorem apiCalls_cons_other (e : Event) (rest : List Event)
    (h : ¬e.event = "completion_call") :
    apiCalls (e :: rest) = apiCalls rest := by
  show (if e.event = "completion_call" then
      match nextBound rest with
      | some b => if b.elapsed_s = 0 then apiCalls rest else mkCall e b :: apiCalls rest
      | none => apiCalls rest
    else apiCalls rest) = _
  rw [if_neg h]

theorem sumStats_addStat (s : List (String × Nat × ℚ)) (name : String) (t : ℚ) :
    sumStats (addStat s name t) = sumStats s + t := by
  induction s with
  | nil => simp [addStat, sumStats]
  | cons hd tl ih =>
    obtain ⟨n, c, tt⟩ := hd
    by_cases h : n = name
    · simp [addStat, h, sumStats]
      ring
    · simp [addStat, h, sumStats] at ih ⊢
      rw [ih]
      ring

theorem sumStats_foldl (ts : List ToolExec) (s : List (String × Nat × ℚ)) :
    sumStats (ts.foldl (fun acc t => addStat acc t.tool t.time) s)
      = sumStats s + (ts.map ToolExec.time).sum := by
  induction ts generalizing s with
  | nil => simp
  | cons t ts ih =>
    simp only [List.foldl_cons, List.map_cons, List.sum_cons]
    rw [ih, sumStats_addStat]
    ring

theorem nextBound_append_nonbounding (mid l : List Event)
    (hm : ∀ x ∈ mid, isBounding x = false) : nextBound (mid ++ l) = nextBound l := by
  induction mid with
  | nil => rfl
  | cons x xs ih =>
    rw [List.cons_append]
    unfold nextBound
    rw [List.find?_cons_of_neg _ (by simp [hm x (by simp)])]
    exact ih (fun y hy => hm y (by simp [hy]))

theorem nextBound_cons_nonbounding (x : Event) (l : List Event)
    (hx : isBounding x = false) : nextBound (x :: l) = nextBound l := by
  unfold nextBound
  rw [List.find?_cons_of_neg _ (by simp [hx])]

theorem apiCalls_cons_superset (x : Event) (l : List Event) :
    ∀ c ∈ apiCalls l, c ∈ apiCalls (x :: l) := by
  intro c hc
  by_cases h : x.event = "completion_call"
  · cases hnb : nextBound l with
    | none => rw [apiCalls_cons_cc_none x l h hnb]; exact hc
    | some b =>
      rw [apiCalls_cons_cc_some x b l h hnb]
      by_cases hz : b.elapsed_s = 0
      · rw [if_pos hz]; exact hc
      · rw [if_neg hz]; exact List.mem_cons_of_mem _ hc
  · rw [apiCalls_cons_other x l h]; exact hc

theorem apiCalls_append_superset (pre l : List Event) :
    ∀ c ∈ apiCalls l, c ∈ apiCalls (pre ++ l) := by
  induction pre with
  | nil => intro c hc; exact hc
  | cons x xs ih =>
    intro c hc
    rw [List.cons_append]
    exact apiCalls_cons_superset x (xs ++ l) c (ih c hc)

/-! ## Claims -/

/-- Claim C1 (code bug): the spec emits an `ApiCallSpan` whenever a
bounding event follows the `CompletionCall`, but the source's guard
`if next_event_time:` is float truthiness, so a bounding event found at
`elapsed_s = 0` produces no span.  At the failing input the bounding
event exists right after the call, yet `api_calls` is empty. -/
theorem c1_code_behavior :
    nextBound [c1bound] = some c1bound ∧ apiCalls [c1call, c1bound] = [] := by
  constructor
  · simp [nextBound, List.find?, isBounding, c1bound]
  · simp [apiCalls, nextBound, isBounding, mkCall, List.find?, c1call, c1bound]

/-- Claim C2 (code bug): the empty trace does produce the complete,
all-empty summary without any division, but the universal half of the
claim fails: the well-formed trace `c2trace` (one api call, no tool
time) makes the code raise `ZeroDivisionError` in the insight stage
instead of producing a summary. -/
theorem c2_code_behavior :
    analyze [] = .ok ⟨0, 0, 0, 0, [], [], []⟩ ∧
      analyze c2trace = .error PyError.zeroDivisionError := by
  constructor
  · simp [analyze, rule1, rule2, rule3, totalTime, totalApiTime, totalToolTime,
      apiCalls, toolExecs, toolStats, slowOf]
  · simp [analyze, rule1, rule2, rule3, totalTime, totalApiTime, totalToolTime,
      apiCalls, toolExecs, toolStats, slowOf, nextBound, isBounding, mkCall,
      List.find?, c2trace]

/-- Claim C3 (code bug): with `total_tool_time_s = 0` and
`total_api_time_s > 0` the dominance comparison fires and the insight's
ratio `total_api_time/total_tool_time` divides by zero, so the code
raises `ZeroDivisionError` instead of emitting the insight that the
claim (and spec rule 1) promises. -/
theorem c3_code_behavior :
    totalToolTime c3trace = 0 ∧ 0 < totalApiTime c3trace ∧
      rule1 (totalApiTime c3trace) (totalToolTime c3trace) = .error PyError.zeroDivisionError ∧
      analyze c3trace = .error PyError.zeroDivisionError := by
  have h1 : totalToolTime c3trace = 0 := by
    simp [totalToolTime, toolExecs, c3trace]
  have h2 : totalApiTime c3trace = 5 := by
    simp [totalApiTime, apiCalls, nextBound, isBounding, mkCall, List.find?, c3trace]
    norm_num
  refine ⟨h1, by rw [h2]; norm_num, ?_, ?_⟩
  · rw [h1, h2]
    simp [rule1]
  · unfold analyze
    rw [h1, h2]
    simp [rule1]

/-- Claim C4, counterexample: a `tool_result` event carrying the present,
non-null duration `0` emits no `ToolExecution`, because the source's
guard `event.get('duration_s')` is truthiness, not a `None` test. -/
theorem c4_counterexample :
    c4zero.event = "tool_result" ∧ c4zero.duration_s = some 0 ∧ toolExecs [c4zero] = [] := by
  refine ⟨rfl, rfl, ?_⟩
  simp [toolExecs, c4zero]

/-- Claim C4, amended: the resolver emits exactly one `ToolExecution` for
each `tool_result` event whose `duration_s` is present and non-zero
(Python truthiness excludes both `None` and `0`), and none for any other
event, with `turn` and `duration_s` copied and the tool name defaulting
to `"unknown"` when absent. -/
theorem c4_tool_executions (es : List Event) : toolExecs es = es.filterMap toolExecOf := by
  induction es with
  | nil => rfl
  | cons e rest ih =>
    rw [List.filterMap_cons]
    by_cases h : e.event = "tool_result"
    · cases hd : e.duration_s with
      | none => simp [toolExecs, toolExecOf, h, hd, ih]
      | some d =>
        by_cases hz : d = 0
        · simp [toolExecs, toolExecOf, h, hd, hz, ih]
        · simp [toolExecs, toolExecOf, h, hd, hz, ih]
    · simp [toolExecs, toolExecOf, h, ih]

/-- Claim C5, counterexample: a trace whose single non-blank line decodes
to a record with the unrecognized `event` value `"banana"` is claimed to
abort the analysis, but the code accepts it and completes with a full
summary. -/
theorem c5_counterexample :
    analyzeTrace [Line.record c5odd] = .ok ⟨1, 0, 0, 1, [], [], []⟩ := by
  simp [analyzeTrace, loadTrace, analyze, rule1, rule2, rule3, totalTime,
    totalApiTime, totalToolTime, apiCalls, toolExecs, toolStats, slowOf, c5odd]

/-- Claim C5, amended: the loader aborts the whole run (with a bare
decode error, not a `MalformedRecord` carrying the 1-based line number)
whenever some non-blank line has invalid JSON syntax; a missing or
unrecognized `event` field is not rejected by the loader; and for every
input with no invalid line it produces the stream of decoded records of
the non-blank lines, in original order, whose length is the number of
non-blank lines. -/
theorem c5_loader (ls : List Line) :
    ((∃ l ∈ ls, l = Line.invalid) → loadTrace ls = .error PyError.decodeError) ∧
      ((∀ l ∈ ls, l ≠ Line.invalid) →
        loadTrace ls = .ok (ls.filterMap lineRecord) ∧
          (ls.filterMap lineRecord).length = (ls.filter (fun l => l ≠ Line.blank)).length) := by
  induction ls with
  | nil => simp [loadTrace]
  | cons l rest ih =>
    cases l with
    | blank =>
      constructor
      · intro h
        simp only [List.mem_cons] at h
        obtain ⟨x, hx | hx, hinv⟩ := h
        · rw [hx] at hinv; cases hinv
        · exact (loadTrace_blank_cons rest) ▸ ih.1 ⟨x, hx, hinv⟩
      · intro h
        have hrest := ih.2 (fun x hx => h x (by simp [hx]))
        refine ⟨?_, ?_⟩
        · rw [loadTrace_blank_cons rest, hrest.1]
          simp [lineRecord]
        · simp [lineRecord, hrest.2]
    | invalid =>
      constructor
      · intro _; rfl
      · intro h
        exact absurd rfl (h Line.invalid (by simp))
    | record e =>
      constructor
      · intro h
        simp only [List.mem_cons] at h
        obtain ⟨x, hx | hx, hinv⟩ := h
        · rw [hx] at hinv; cases hinv
        · have := ih.1 ⟨x, hx, hinv⟩
          show loadTrace (Line.record e :: rest) = _
          unfold loadTrace
          rw [this]
      · intro h
        have hrest := ih.2 (fun x hx => h x (by simp [hx]))
        refine ⟨?_, ?_⟩
        · show loadTrace (Line.record e :: rest) = _
          unfold loadTrace
          rw [hrest.1]
          simp [lineRecord]
        · simp [lineRecord, hrest.2]

/-- Witness for the amended claim C5 at two concrete inputs: an invalid
line aborts with the decode error, and an invalid-free input loads to
its decoded records. -/
theorem c5_witness :
    loadTrace [Line.blank, Line.invalid] = .error PyError.decodeError ∧
      loadTrace [Line.blank, Line.record c5evt]
        = .ok ([Line.blank, Line.record c5evt].filterMap lineRecord) :=
  ⟨(c5_loader [Line.blank, Line.invalid]).1 ⟨Line.invalid, by simp, rfl⟩,
   ((c5_loader [Line.blank, Line.record c5evt]).2 (by simp)).1⟩

/-- Claim C7: grouping tool executions by name partitions them, so the
sum of the per-tool `total_time_s` equals `total_tool_time_s` exactly. -/
theorem c7_sum_law (es : List Event) : sumStats (toolStats es) = totalToolTime es := by
  unfold toolStats totalToolTime
  rw [sumStats_foldl]
  simp [sumStats]

/-- Claim C9: on a stream whose `elapsed_s` values are non-decreasing,
every emitted span has non-negative duration, because the bounding event
is found strictly later in the stream. -/
theorem c9_nonneg (es : List Event)
    (h : es.Pairwise (fun a b => a.elapsed_s ≤ b.elapsed_s)) :
    ∀ c ∈ apiCalls es, 0 ≤ c.time := by
  induction es with
  | nil => simp [apiCalls]
  | cons e rest ih =>
    rw [List.pairwise_cons] at h
    obtain ⟨he, hrest⟩ := h
    intro c hc
    by_cases hcc : e.event = "completion_call"
    · cases hnb : nextBound rest with
      | none =>
        rw [apiCalls_cons_cc_none e rest hcc hnb] at hc
        exact ih hrest c hc
      | some b =>
        rw [apiCalls_cons_cc_some e b rest hcc hnb] at hc
        by_cases hz : b.elapsed_s = 0
        · rw [if_pos hz] at hc; exact ih hrest c hc
        · rw [if_neg hz] at hc
          rcases List.mem_cons.mp hc with hceq | htl
          · have hb : b ∈ rest := List.mem_of_find?_eq_some hnb
            have hle := he b hb
            rw [hceq]
            simp only [mkCall]
            linarith
          · exact ih hrest c htl
    · rw [apiCalls_cons_other e rest hcc] at hc
      exact ih hrest c hc

/-- Witness for claim C9: the span of the monotone trace `c9trace` has
non-negative duration. -/
theorem c9_witness : 0 ≤ (ApiCall.mk 1 2 0).time :=
  c9_nonneg c9trace
    (by simp [c9trace, List.pairwise_cons])
    ⟨1, 2, 0⟩
    (by simp [apiCalls, nextBound, isBounding, mkCall, List.find?, c9trace]; norm_num)

/-- Claim C10: completion calls separated only by non-bounding events are
paired with the same first bounding event `b` after the last of them, so
their spans (both present in `api_calls` when the guard passes) share
`b.elapsed_s` as end time, and each contributes its own duration. -/
theorem c10_shared_bound (pre mid post : List Event) (e1 e2 b : Event)
    (h1 : e1.event = "completion_call") (h2 : e2.event = "completion_call")
    (hm : ∀ x ∈ mid, isBounding x = false)
    (hb : nextBound post = some b) (hz : ¬b.elapsed_s = 0) :
    nextBound (mid ++ e2 :: post) = some b ∧
      mkCall e1 b ∈ apiCalls (pre ++ e1 :: (mid ++ e2 :: post)) ∧
      mkCall e2 b ∈ apiCalls (pre ++ e1 :: (mid ++ e2 :: post)) := by
  have hshared : nextBound (mid ++ e2 :: post) = some b := by
    rw [nextBound_append_nonbounding mid _ hm,
      nextBound_cons_nonbounding e2 post (isBounding_of_completion_call e2 h2), hb]
  have hmem1 : mkCall e1 b ∈ apiCalls (e1 :: (mid ++ e2 :: post)) := by
    rw [apiCalls_cons_cc_some e1 b _ h1 hshared, if_neg hz]
    exact List.mem_cons_self _ _
  have hmem2 : mkCall e2 b ∈ apiCalls (e2 :: post) := by
    rw [apiCalls_cons_cc_some e2 b _ h2 hb, if_neg hz]
    exact List.mem_cons_self _ _
  refine ⟨hshared, apiCalls_append_superset pre _ _ hmem1, ?_⟩
  exact apiCalls_append_superset pre _ _
    (apiCalls_cons_superset e1 _ _ (apiCalls_append_superset mid _ _ hmem2))

/-- Witness for claim C10 at a concrete trace: two adjacent completion
calls share the bounding `tool_call` and both spans are emitted. -/
theorem c10_witness :
    nextBound ([] ++ c10e2 :: [c10b]) = some c10b ∧
      mkCall c10e1 c10b ∈ apiCalls ([] ++ c10e1 :: ([] ++ c10e2 :: [c10b])) ∧
      mkCall c10e2 c10b ∈ apiCalls ([] ++ c10e1 :: ([] ++ c10e2 :: [c10b])) :=
  c10_shared_bound [] [] [c10b] c10e1 c10e2 c10b rfl rfl (by simp)
    (by simp [nextBound, List.find?, isBounding, c10b]) (by norm_num [c10b])

/-! ## Claim C8: the slow-tool rule -/

theorem slowOf_eq_nil_iff (ts : List ToolExec) :
    slowOf ts = [] ↔ ∀ t ∈ ts, ¬((1 : ℚ) / 10 < t.time) := by
  simp [slowOf, List.filter_eq_nil_iff]

theorem mem_insertDesc (x z : ToolExec) (l : List ToolExec) :
    z ∈ insertDesc x l ↔ z = x ∨ z ∈ l := by
  induction l with
  | nil => simp [insertDesc]
  | cons y ys ih =>
    by_cases h : y.time ≤ x.time
    · simp only [insertDesc, if_pos h, List.mem_cons]
    · simp only [insertDesc, if_neg h, List.mem_cons, ih]
      tauto

theorem perm_insertDesc (x : ToolExec) (l : List ToolExec) :
    (insertDesc x l).Perm (x :: l) := by
  induction l with
  | nil => simp [insertDesc]
  | cons y ys ih =>
    by_cases h : y.time ≤ x.time
    · rw [insertDesc, if_pos h]
    · rw [insertDesc, if_neg h]
      exact (ih.cons y).trans (List.Perm.swap x y ys)

theorem sortDesc_perm (l : List ToolExec) : (sortDesc l).Perm l := by
  induction l with
  | nil => rfl
  | cons a l ih =>
    show (insertDesc a (sortDesc l)).Perm (a :: l)
    exact (perm_insertDesc a (sortDesc l)).trans (ih.cons a)

theorem pairwise_insertDesc (x : ToolExec) (l : List ToolExec)
    (h : l.Pairwise (fun a b => b.time ≤ a.time)) :
    (insertDesc x l).Pairwise (fun a b => b.time ≤ a.time) := by
  induction l with
  | nil => simp [insertDesc]
  | cons y ys ih =>
    rw [List.pairwise_cons] at h
    obtain ⟨hy, hys⟩ := h
    by_cases hc : y.time ≤ x.time
    · rw [insertDesc, if_pos hc, List.pairwise_cons]
      refine ⟨?_, List.pairwise_cons.mpr ⟨hy, hys⟩⟩
      intro z hz
      rcases List.mem_cons.mp hz with rfl | hz'
      · exact hc
      · exact le_trans (hy z hz') hc
    · rw [insertDesc, if_neg hc, List.pairwise_cons]
      refine ⟨?_, ih hys⟩
      intro z hz
      rcases (mem_insertDesc x z ys).mp hz with rfl | hz'
      · exact le_of_not_le hc
      · exact hy z hz'

theorem sortDesc_pairwise (l : List ToolExec) :
    (sortDesc l).Pairwise (fun a b => b.time ≤ a.time) := by
  induction l with
  | nil => simp [sortDesc]
  | cons a l ih => exact pairwise_insertDesc a (sortDesc l) ih

theorem filter_insertDesc_of_ne (x : ToolExec) (l : List ToolExec) (q : ℚ) (h : ¬x.time = q) :
    (insertDesc x l).filter (fun t => t.time = q) = l.filter (fun t => t.time = q) := by
  induction l with
  | nil => simp [insertDesc, h]
  | cons y ys ih =>
    by_cases hc : y.time ≤ x.time
    · rw [insertDesc, if_pos hc]
      simp [List.filter_cons, h]
    · rw [insertDesc, if_neg hc]
      simp [List.filter_cons, ih]

theorem filter_insertDesc_self (x : ToolExec) (l : List ToolExec) :
    (insertDesc x l).filter (fun t => t.time = x.time)
      = x :: l.filter (fun t => t.time = x.time) := by
  induction l with
  | nil => simp [insertDesc]
  | cons y ys ih =>
    by_cases hc : y.time ≤ x.time
    · rw [insertDesc, if_pos hc]
      simp [List.filter_cons]
    · rw [insertDesc, if_neg hc]
      have hy : ¬y.time = x.time := fun hyx => hc (le_of_eq hyx)
      simp [List.filter_cons, hy, ih]

theorem sortDesc_filter (l : List ToolExec) (q : ℚ) :
    (sortDesc l).filter (fun t => t.time = q) = l.filter (fun t => t.time = q) := by
  induction l with
  | nil => rfl
  | cons a l ih =>
    show (insertDesc a (sortDesc l)).filter _ = _
    by_cases h : a.time = q
    · subst h
      rw [filter_insertDesc_self, ih]
      simp [List.filter_cons]
    · rw [filter_insertDesc_of_ne a _ q h, ih]
      simp [List.filter_cons, h]

/-- Claim C8: the slow-tool rule fires iff some execution's duration
exceeds `0.1`, and its supporting list is the first three entries of the
stable descending sort of the slow executions: a permutation of the slow
list, sorted by `time` descending, in which equal keys keep their
original chronological order (the filter condition), truncated to at
most 3 entries. -/
theorem c8_slow_tool_rule (ts : List ToolExec) :
    ((rule3 ts).isSome ↔ ∃ t ∈ ts, (1 : ℚ) / 10 < t.time) ∧
      (slowSupport ts).length ≤ 3 ∧
      ∃ L : List ToolExec, slowSupport ts = L.take 3 ∧ L.Perm (slowOf ts) ∧
        L.Pairwise (fun a b => b.time ≤ a.time) ∧
        ∀ q : ℚ, L.filter (fun t => t.time = q) = (slowOf ts).filter (fun t => t.time = q) := by
  refine ⟨?_, ?_, sortDesc (slowOf ts), rfl, sortDesc_perm _, sortDesc_pairwise _,
    fun q => sortDesc_filter _ q⟩
  · by_cases h : slowOf ts = []
    · rw [rule3, if_pos h]
      simp only [Option.isSome_none, Bool.false_eq_true, false_iff, not_exists]
      rw [slowOf_eq_nil_iff] at h
      intro t ht
      exact h t ht.1 ht.2
    · rw [rule3, if_neg h]
      simp only [Option.isSome_some, true_iff]
      obtain ⟨x, hx⟩ := List.exists_mem_of_ne_nil _ h
      simp only [slowOf] at hx
      have hmf := List.mem_filter.mp hx
      exact ⟨x, hmf.1, by simpa using hmf.2⟩
  · rw [slowSupport, List.length_take]
    exact min_le_left _ _

/-! ## Claim C6: the shared-cursor pairing refines the rescan pairing -/

theorem cursorResolve_cons (e : Event) (rest cur : List Event) :
    cursorResolve (e :: rest) cur =
      if e.event = "completion_call" then
        match dropUntilBound (if cur.length ≤ rest.length then cur else rest) with
        | b :: r => (if b.elapsed_s = 0 then [] else [mkCall e b]) ++ cursorResolve rest (b :: r)
        | [] => cursorResolve rest cur
      else cursorResolve rest cur := rfl

theorem dropUntilBound_head_bounding :
    ∀ (l : List Event) (b : Event) (r : List Event),
      dropUntilBound l = b :: r → isBounding b = true := by
  intro l
  induction l with
  | nil => intro b r h; cases h
  | cons e l' ih =>
    intro b r h
    by_cases he : isBounding e
    · rw [dropUntilBound, if_pos he] at h
      cases h
      exact he
    · rw [dropUntilBound, if_neg he] at h
      exact ih b r h

theorem dropUntilBound_decomp (l : List Event) :
    ∃ m, l = m ++ dropUntilBound l ∧ ∀ x ∈ m, isBounding x = false := by
  induction l with
  | nil => exact ⟨[], rfl, by simp⟩
  | cons e l' ih =>
    by_cases he : isBounding e
    · refine ⟨[], ?_, by simp⟩
      rw [dropUntilBound, if_pos he]
      rfl
    · obtain ⟨m, hm, hall⟩ := ih
      refine ⟨e :: m, ?_, ?_⟩
      · rw [dropUntilBound, if_neg he, List.cons_append]
        rw [← hm]
      · intro x hx
        rcases List.mem_cons.mp hx with rfl | hx'
        · simpa using he
        · exact hall x hx'

theorem dropUntilBound_append_nonbounding (m l : List Event)
    (hm : ∀ x ∈ m, isBounding x = false) :
    dropUntilBound (m ++ l) = dropUntilBound l := by
  induction m with
  | nil => rfl
  | cons y m' ih =>
    rw [List.cons_append, dropUntilBound, if_neg (by simp [hm y (by simp)])]
    exact ih (fun x hx => hm x (by simp [hx]))

theorem dropUntilBound_cons_bounding (b : Event) (r : List Event) (hb : isBounding b = true) :
    dropUntilBound (b :: r) = b :: r := by
  rw [dropUntilBound, if_pos (by simp [hb])]

theorem nextBound_eq_head_dropUntilBound (l : List Event) :
    nextBound l = (dropUntilBound l).head? := by
  induction l with
  | nil => rfl
  | cons e r ih =>
    by_cases he : isBounding e
    · rw [nextBound, List.find?_cons_of_pos _ he, dropUntilBound, if_pos he]
      rfl
    · rw [nextBound, List.find?_cons_of_neg _ he, dropUntilBound, if_neg he]
      exact ih

theorem cursorInv_tail (e : Event) (rest cur : List Event)
    (h : CursorInv (e :: rest) cur) : CursorInv rest cur := by
  rcases h with hle | ⟨m, b, r, hcur, hrem, hm, hb⟩
  · left
    simp only [List.length_cons] at hle
    omega
  · cases m with
    | nil =>
      left
      simp only [List.nil_append] at hrem
      rw [← hrem]
      simp
    | cons y m' =>
      rw [List.cons_append] at hrem
      injection hrem with _ hrest
      exact Or.inr ⟨m', b, r, hcur, hrest, fun x hx => hm x (by simp [hx]), hb⟩

theorem cursorResolve_eq_apiCalls (rem : List Event) :
    ∀ cur, CursorInv rem cur → cursorResolve rem cur = apiCalls rem := by
  induction rem with
  | nil => intro cur _; rfl
  | cons e rest ih =>
    intro cur hinv
    by_cases hcc : e.event = "completion_call"
    · have hscan :
          dropUntilBound (if cur.length ≤ rest.length then cur else rest)
            = dropUntilBound rest := by
        by_cases hlen : cur.length ≤ rest.length
        · rw [if_pos hlen]
          rcases hinv with hle | ⟨m, b, r, hcur, hrem, hm, hb⟩
          · exfalso
            simp only [List.length_cons] at hle
            omega
          · cases m with
            | nil =>
              exfalso
              simp only [List.nil_append] at hrem
              rw [← hrem] at hlen
              simp at hlen
            | cons y m' =>
              rw [List.cons_append] at hrem
              injection hrem with _ hrest
              rw [hrest,
                dropUntilBound_append_nonbounding m' cur (fun x hx => hm x (by simp [hx])),
                hcur, dropUntilBound_cons_bounding b r hb]
        · rw [if_neg hlen]
      rw [cursorResolve_cons, if_pos hcc, hscan]
      cases hdrop : dropUntilBound rest with
      | nil =>
        have hnb : nextBound rest = none := by
          rw [nextBound_eq_head_dropUntilBound, hdrop]
          rfl
        rw [apiCalls_cons_cc_none e rest hcc hnb]
        exact ih cur (cursorInv_tail e rest cur hinv)
      | cons b r =>
        have hnb : nextBound rest = some b := by
          rw [nextBound_eq_head_dropUntilBound, hdrop]
          rfl
        rw [apiCalls_cons_cc_some e b rest hcc hnb]
        show (if b.elapsed_s = 0 then [] else [mkCall e b]) ++ cursorResolve rest (b :: r) = _
        have hrec : cursorResolve rest (b :: r) = apiCalls rest := by
          apply ih
          obtain ⟨m, hm, hall⟩ := dropUntilBound_decomp rest
          rw [hdrop] at hm
          exact Or.inr ⟨m, b, r, rfl, hm, hall, dropUntilBound_head_bounding rest b r hdrop⟩
        rw [hrec]
        by_cases hz : b.elapsed_s = 0
        · rw [if_pos hz, if_pos hz]
          rfl
        · rw [if_neg hz, if_neg hz]
          rfl
    · rw [cursorResolve_cons, if_neg hcc, apiCalls_cons_other e rest hcc]
      exact ih cur (cursorInv_tail e rest cur hinv)

/-- Claim C6: for every stream, the pairing that keeps one monotonically
advancing cursor shared across all completion-call searches (§4.2's
linear-time design, `cursorApiCalls`) produces exactly the ordered span
list of the code's independent rescan from each call's successor
(`apiCalls`), span construction and guard being identical on both
sides. -/
theorem c6_cursor_refinement (es : List Event) : cursorApiCalls es = apiCalls es :=
  cursorResolve_eq_apiCalls es es (Or.inl le_rfl)
